import Mathlib

/-!
Verification of the muchas-radio backend orchestration layer, shallowly
embedded in Lean 4. Definitions are transcribed from the Rust sources
(`src/backend/src/api/upload.rs`, `src/backend/src/api/stream.rs`,
`src/backend/src/state.rs`, `src/backend/src/mpd_manager.rs`).
-/

namespace MuchasRadio

/-! ## Storage eviction (upload.rs) -/

/-- A file in the `uploads` directory: name, byte size, modification time.
The list order models directory-iteration order. -/
structure FileEntry where
  name : String
  size : Nat
  mtime : Nat
deriving DecidableEq, Repr

/-- `upload.rs` skips files whose name starts with a dot (`.gitkeep` etc.)
when choosing an eviction victim; this models `starts_with('.')` on the
filename's character sequence. -/
def FileEntry.isDot (f : FileEntry) : Bool :=
  match f.name.data with
  | [] => false
  | c :: _ => c = '.'

/-- `MAX_FILE_SIZE` from upload.rs: 100 MB per-file cap. -/
def MAX_FILE_SIZE : Nat := 100 * 1024 * 1024

/-- `DEFAULT_MAX_TOTAL_STORAGE` from upload.rs: 300 MB. -/
def DEFAULT_MAX_TOTAL_STORAGE : Nat := 300 * 1024 * 1024

/-- `get_uploads_directory_size`: sums the sizes of every regular file,
dotfiles included. -/
def get_uploads_directory_size (files : List FileEntry) : Nat :=
  (files.map FileEntry.size).sum

/-- One step of the scan in `get_oldest_file`: skip dotfiles, keep the
entry with the strictly smallest modification time seen so far (ties keep
the earlier-scanned entry, matching the strict `<` in the Rust code). -/
def oldestStep (acc : Option FileEntry) (e : FileEntry) : Option FileEntry :=
  if e.isDot then acc
  else
    match acc with
    | none => some e
    | some o => if e.mtime < o.mtime then some e else some o

/-- `get_oldest_file`: the oldest non-dot file in the directory, if any. -/
def get_oldest_file (files : List FileEntry) : Option FileEntry :=
  files.foldl oldestStep none

lemma oldestStep_mem_or (acc : Option FileEntry) (e : FileEntry) (f : FileEntry)
    (h : oldestStep acc e = some f) : acc = some f ∨ f = e := by
  unfold oldestStep at h
  split at h
  · exact Or.inl h
  · cases acc with
    | none => simp at h; exact Or.inr h.symm
    | some o =>
      simp only at h
      split at h
      · simp at h; exact Or.inr h.symm
      · exact Or.inl h

lemma oldestStep_not_dot (acc : Option FileEntry) (e : FileEntry) (f : FileEntry)
    (hacc : ∀ g, acc = some g → g.isDot = false)
    (h : oldestStep acc e = some f) : f.isDot = false := by
  rcases oldestStep_mem_or acc e f h with h1 | h1
  · exact hacc f h1
  · subst h1
    unfold oldestStep at h
    by_cases hd : f.isDot
    · rw [if_pos hd] at h
      exact absurd (hacc f h) (by simp [hd])
    · simpa using hd

lemma foldl_oldest_mem (files : List FileEntry) (acc : Option FileEntry) (f : FileEntry)
    (h : files.foldl oldestStep acc = some f) : acc = some f ∨ f ∈ files := by
  induction files generalizing acc with
  | nil => exact Or.inl h
  | cons e rest ih =>
    rcases ih (oldestStep acc e) h with h1 | h1
    · rcases oldestStep_mem_or acc e f h1 with h2 | h2
      · exact Or.inl h2
      · exact Or.inr (by simp [h2])
    · exact Or.inr (List.mem_cons_of_mem _ h1)

/-- The victim returned by `get_oldest_file` is a member of the directory. -/
lemma get_oldest_file_mem (files : List FileEntry) (f : FileEntry)
    (h : get_oldest_file files = some f) : f ∈ files := by
  rcases foldl_oldest_mem files none f h with h1 | h1
  · exact absurd h1 (by simp)
  · exact h1

lemma foldl_oldest_not_dot (files : List FileEntry) (acc : Option FileEntry) (f : FileEntry)
    (hacc : ∀ g, acc = some g → g.isDot = false)
    (h : files.foldl oldestStep acc = some f) : f.isDot = false := by
  induction files generalizing acc with
  | nil => exact hacc f h
  | cons e rest ih =>
    refine ih (oldestStep acc e) (fun g hg => oldestStep_not_dot acc e g hacc hg) h

/-- The victim returned by `get_oldest_file` is never a dotfile. -/
lemma get_oldest_file_not_dot (files : List FileEntry) (f : FileEntry)
    (h : get_oldest_file files = some f) : f.isDot = false :=
  foldl_oldest_not_dot files none f (by simp) h

lemma foldl_oldest_none (files : List FileEntry) (acc : Option FileEntry)
    (h : files.foldl oldestStep acc = none) :
    acc = none ∧ ∀ f ∈ files, f.isDot = true := by
  induction files generalizing acc with
  | nil => exact ⟨h, by simp⟩
  | cons e rest ih =>
    obtain ⟨h1, h2⟩ := ih (oldestStep acc e) h
    have he : e.isDot = true := by
      by_contra hne
      have : oldestStep acc e ≠ none := by
        unfold oldestStep
        rw [if_neg (by simpa using hne)]
        cases acc <;> simp <;> split <;> simp
      exact this h1
    refine ⟨?_, ?_⟩
    · unfold oldestStep at h1
      rw [if_pos he] at h1
      exact h1
    · intro f hf
      rcases List.mem_cons.mp hf with h3 | h3
      · subst h3; exact he
      · exact h2 f h3

/-- `get_oldest_file` fails exactly when every file is a dotfile. -/
lemma get_oldest_file_none (files : List FileEntry)
    (h : get_oldest_file files = none) : ∀ f ∈ files, f.isDot = true :=
  (foldl_oldest_none files none h).2

lemma foldl_oldest_le (files : List FileEntry) (acc : Option FileEntry) (f : FileEntry)
    (h : files.foldl oldestStep acc = some f) :
    (∀ o, acc = some o → f.mtime ≤ o.mtime) ∧
    (∀ g ∈ files, g.isDot = false → f.mtime ≤ g.mtime) := by
  induction files generalizing acc with
  | nil =>
    refine ⟨fun o ho => ?_, by simp⟩
    rw [ho] at h; simp at h; simp [h]
  | cons e rest ih =>
    obtain ⟨A, B⟩ := ih (oldestStep acc e) h
    have hstep : ∀ o, acc = some o → f.mtime ≤ o.mtime := by
      intro o ho
      subst ho
      unfold oldestStep at A
      by_cases hd : e.isDot
      · exact A o (by rw [if_pos hd])
      · rw [if_neg hd] at A
        by_cases hlt : e.mtime < o.mtime
        · have := A e (by simp [hlt])
          omega
        · exact A o (by simp [hlt])
    refine ⟨hstep, ?_⟩
    intro g hg hgd
    rcases List.mem_cons.mp hg with h1 | h1
    · subst h1
      unfold oldestStep at A
      rw [if_neg (by simp [hgd])] at A
      cases hacc : acc with
      | none =>
        rw [hacc] at A; exact A g (by simp)
      | some o =>
        rw [hacc] at A
        by_cases hlt : g.mtime < o.mtime
        · exact A g (by simp [hlt])
        · have := A o (by simp [hlt])
          omega
    · exact B g h1 hgd

/-- The victim returned by `get_oldest_file` has minimal modification time
among the non-dot files. -/
lemma get_oldest_file_min (files : List FileEntry) (f : FileEntry)
    (h : get_oldest_file files = some f) :
    ∀ g ∈ files, g.isDot = false → f.mtime ≤ g.mtime :=
  (foldl_oldest_le files none f h).2

/-- The order in which repeated calls to `get_oldest_file` would pick
victims from the directory: the eviction order of `free_up_space`. -/
def evictionOrder (files : List FileEntry) : List FileEntry :=
  match h : get_oldest_file files with
  | none => []
  | some f => f :: evictionOrder (files.erase f)
termination_by files.length
decreasing_by
  have hm := get_oldest_file_mem files f h
  have h1 : (files.erase f).length = files.length - 1 := List.length_erase_of_mem hm
  have h2 : 0 < files.length := List.length_pos.mpr (List.ne_nil_of_mem hm)
  omega

/-- The `while freed < to_free` loop of `free_up_space`: repeatedly delete
the oldest file, accumulating freed bytes, until the deficit is covered or
no candidate remains. Returns (success, deleted files, remaining files). -/
def free_loop (toFree freed : Nat) (files : List FileEntry) :
    Bool × List FileEntry × List FileEntry :=
  if toFree ≤ freed then (true, [], files)
  else
    match h : get_oldest_file files with
    | none => (false, [], files)
    | some f =>
      let r := free_loop toFree (freed + f.size) (files.erase f)
      (r.1, f :: r.2.1, r.2.2)
termination_by files.length
decreasing_by
  have hm := get_oldest_file_mem files f h
  have h1 : (files.erase f).length = files.length - 1 := List.length_erase_of_mem hm
  have h2 : 0 < files.length := List.length_pos.mpr (List.ne_nil_of_mem hm)
  omega

/-- `free_up_space(needed_size)` from upload.rs: succeed immediately if the
directory plus the needed bytes fits the budget, otherwise run the deletion
loop on the deficit. Returns (success, deleted files, remaining files). -/
def free_up_space (maxStorage neededSize : Nat) (files : List FileEntry) :
    Bool × List FileEntry × List FileEntry :=
  let currentSize := get_uploads_directory_size files
  if currentSize + neededSize ≤ maxStorage then (true, [], files)
  else free_loop (currentSize + neededSize - maxStorage) 0 files

/-- Number of entries a greedy scan must take from `sizes` for the running
sum to reach `toFree`; `none` when the whole list is not enough. -/
def coverCount (toFree : Nat) (sizes : List Nat) : Option Nat :=
  if toFree = 0 then some 0
  else
    match sizes with
    | [] => none
    | s :: rest => (coverCount (toFree - s) rest).map (· + 1)

lemma coverCount_zero (sizes : List Nat) : coverCount 0 sizes = some 0 := by
  cases sizes <;> simp [coverCount]

lemma coverCount_isSome_iff (toFree : Nat) (sizes : List Nat) :
    (coverCount toFree sizes).isSome ↔ toFree ≤ sizes.sum := by
  induction sizes generalizing toFree with
  | nil =>
    by_cases h : toFree = 0
    · simp [coverCount, h]
    · simp [coverCount, h]
  | cons s rest ih =>
    by_cases h : toFree = 0
    · simp [coverCount, h]
    · rw [coverCount, if_neg h]
      cases hc : coverCount (toFree - s) rest with
      | none =>
        have hsum : rest.sum < toFree - s := by
          by_contra hle
          have hs : (coverCount (toFree - s) rest).isSome := (ih (toFree - s)).mpr (by omega)
          rw [hc] at hs
          simp at hs
        simp [hc]
        omega
      | some j =>
        have : toFree - s ≤ rest.sum := (ih (toFree - s)).mp (by rw [hc]; rfl)
        simp [hc]
        omega

lemma coverCount_le_length (toFree : Nat) (sizes : List Nat) (k : Nat)
    (h : coverCount toFree sizes = some k) : k ≤ sizes.length := by
  induction sizes generalizing toFree k with
  | nil =>
    by_cases h0 : toFree = 0
    · simp [coverCount, h0] at h; omega
    · simp [coverCount, h0] at h
  | cons s rest ih =>
    by_cases h0 : toFree = 0
    · simp [coverCount, h0] at h; omega
    · rw [coverCount, if_neg h0] at h
      cases hc : coverCount (toFree - s) rest with
      | none => rw [hc] at h; simp at h
      | some j =>
        rw [hc] at h
        simp at h
        have := ih (toFree - s) j hc
        simp; omega

lemma coverCount_sum_take (toFree : Nat) (sizes : List Nat) (k : Nat)
    (h : coverCount toFree sizes = some k) : toFree ≤ ((sizes.take k).sum) := by
  induction sizes generalizing toFree k with
  | nil =>
    by_cases h0 : toFree = 0
    · omega
    · simp [coverCount, h0] at h
  | cons s rest ih =>
    by_cases h0 : toFree = 0
    · omega
    · rw [coverCount, if_neg h0] at h
      cases hc : coverCount (toFree - s) rest with
      | none => rw [hc] at h; simp at h
      | some j =>
        rw [hc] at h
        simp at h
        subst h
        have := ih (toFree - s) j hc
        simp [List.take_cons]
        omega

lemma coverCount_min (toFree : Nat) (sizes : List Nat) (k : Nat)
    (h : coverCount toFree sizes = some k) :
    ∀ j < k, ((sizes.take j).sum) < toFree := by
  induction sizes generalizing toFree k with
  | nil =>
    by_cases h0 : toFree = 0
    · simp [coverCount, h0] at h; omega
    · simp [coverCount, h0] at h
  | cons s rest ih =>
    by_cases h0 : toFree = 0
    · simp [coverCount, h0] at h; omega
    · rw [coverCount, if_neg h0] at h
      cases hc : coverCount (toFree - s) rest with
      | none => rw [hc] at h; simp at h
      | some j0 =>
        rw [hc] at h
        simp at h
        subst h
        intro j hj
        cases j with
        | zero => simpa using Nat.pos_of_ne_zero h0
        | succ j1 =>
          have hj1 : j1 < j0 := by omega
          have hlt := ih (toFree - s) j0 hc j1 hj1
          have hs : toFree - s ≠ 0 := by
            intro hz
            rw [hz, coverCount_zero] at hc
            simp at hc
            omega
          simp [List.take_cons]
          omega

lemma coverCount_none (toFree : Nat) (sizes : List Nat)
    (h : coverCount toFree sizes = none) : sizes.sum < toFree := by
  have := coverCount_isSome_iff toFree sizes
  rw [h] at this
  simp at this
  omega

lemma evictionOrder_of_none (files : List FileEntry)
    (h : get_oldest_file files = none) : evictionOrder files = [] := by
  rw [evictionOrder]
  split
  · rfl
  · next f hf => rw [h] at hf; cases hf

lemma evictionOrder_of_some (files : List FileEntry) (f : FileEntry)
    (h : get_oldest_file files = some f) :
    evictionOrder files = f :: evictionOrder (files.erase f) := by
  rw [evictionOrder]
  split
  · next hnone => rw [h] at hnone; cases hnone
  · next g hg =>
    rw [h] at hg
    injection hg with hg
    rw [hg]

lemma free_loop_exit (toFree freed : Nat) (files : List FileEntry)
    (h : toFree ≤ freed) : free_loop toFree freed files = (true, [], files) := by
  rw [free_loop, if_pos h]

lemma free_loop_of_none (toFree freed : Nat) (files : List FileEntry)
    (h1 : ¬ toFree ≤ freed) (h2 : get_oldest_file files = none) :
    free_loop toFree freed files = (false, [], files) := by
  rw [free_loop, if_neg h1]
  split
  · rfl
  · next f hf => rw [h2] at hf; cases hf

lemma free_loop_of_some (toFree freed : Nat) (files : List FileEntry) (f : FileEntry)
    (h1 : ¬ toFree ≤ freed) (h2 : get_oldest_file files = some f) :
    free_loop toFree freed files =
      ((free_loop toFree (freed + f.size) (files.erase f)).1,
       f :: (free_loop toFree (freed + f.size) (files.erase f)).2.1,
       (free_loop toFree (freed + f.size) (files.erase f)).2.2) := by
  rw [free_loop, if_neg h1]
  split
  · next hnone => rw [h2] at hnone; cases hnone
  · next g hg =>
    rw [h2] at hg
    injection hg with hg
    rw [hg]

/-- Characterization of the eviction loop: it deletes exactly the shortest
oldest-first run of victims whose sizes cover the remaining deficit, and
fails (after deleting every candidate) when even all of them do not. -/
lemma free_loop_spec (n : Nat) : ∀ (files : List FileEntry), files.length ≤ n →
    ∀ (toFree freed : Nat),
    ((free_loop toFree freed files).1, (free_loop toFree freed files).2.1) =
      (match coverCount (toFree - freed) ((evictionOrder files).map FileEntry.size) with
       | some k => (true, (evictionOrder files).take k)
       | none => (false, evictionOrder files)) := by
  induction n with
  | zero =>
    intro files hlen toFree freed
    have hnil : files = [] := List.length_eq_zero.mp (Nat.le_zero.mp hlen)
    subst hnil
    have hno : get_oldest_file ([] : List FileEntry) = none := rfl
    rw [evictionOrder_of_none _ hno]
    by_cases h : toFree ≤ freed
    · rw [free_loop_exit _ _ _ h]
      have : toFree - freed = 0 := by omega
      rw [this, coverCount_zero]
      simp
    · rw [free_loop_of_none _ _ _ h hno]
      have hne : toFree - freed ≠ 0 := by omega
      simp [coverCount, hne]
  | succ n ih =>
    intro files hlen toFree freed
    by_cases h : toFree ≤ freed
    · rw [free_loop_exit _ _ _ h]
      have : toFree - freed = 0 := by omega
      rw [this, coverCount_zero]
      simp
    · cases hold : get_oldest_file files with
      | none =>
        rw [free_loop_of_none _ _ _ h hold, evictionOrder_of_none _ hold]
        have hne : toFree - freed ≠ 0 := by omega
        simp [coverCount, hne]
      | some f =>
        rw [free_loop_of_some _ _ _ _ h hold, evictionOrder_of_some _ _ hold]
        have hmem := get_oldest_file_mem _ _ hold
        have hlen2 : (files.erase f).length ≤ n := by
          have he : (files.erase f).length = files.length - 1 := List.length_erase_of_mem hmem
          have hpos : 0 < files.length := List.length_pos.mpr (List.ne_nil_of_mem hmem)
          omega
        have hrec := ih (files.erase f) hlen2 toFree (freed + f.size)
        have hne : toFree - freed ≠ 0 := by omega
        have hsub : toFree - (freed + f.size) = (toFree - freed) - f.size := by omega
        rw [hsub] at hrec
        simp only [List.map_cons]
        rw [coverCount, if_neg hne]
        cases hc : coverCount (toFree - freed - f.size)
            ((evictionOrder (files.erase f)).map FileEntry.size) with
        | none =>
          rw [hc] at hrec
          simp only at hrec
          have h1 : (free_loop toFree (freed + f.size) (files.erase f)).1 = false :=
            congrArg Prod.fst hrec
          have h2 : (free_loop toFree (freed + f.size) (files.erase f)).2.1 =
              evictionOrder (files.erase f) := congrArg Prod.snd hrec
          simp [h1, h2]
        | some k =>
          rw [hc] at hrec
          simp only at hrec
          have h1 : (free_loop toFree (freed + f.size) (files.erase f)).1 = true :=
            congrArg Prod.fst hrec
          have h2 : (free_loop toFree (freed + f.size) (files.erase f)).2.1 =
              (evictionOrder (files.erase f)).take k := congrArg Prod.snd hrec
          simp [h1, h2, List.take_cons]

/-- The directory left behind by the eviction loop is the original one
minus the deleted files. -/
lemma free_loop_remaining (n : Nat) : ∀ (files : List FileEntry), files.length ≤ n →
    ∀ (toFree freed : Nat),
    (free_loop toFree freed files).2.2 = files.diff (free_loop toFree freed files).2.1 := by
  induction n with
  | zero =>
    intro files hlen toFree freed
    have hnil : files = [] := List.length_eq_zero.mp (Nat.le_zero.mp hlen)
    subst hnil
    by_cases h : toFree ≤ freed
    · rw [free_loop_exit _ _ _ h]; rfl
    · rw [free_loop_of_none _ _ _ h (by rfl)]; rfl
  | succ n ih =>
    intro files hlen toFree freed
    by_cases h : toFree ≤ freed
    · rw [free_loop_exit _ _ _ h]; simp
    · cases hold : get_oldest_file files with
      | none => rw [free_loop_of_none _ _ _ h hold]; simp
      | some f =>
        rw [free_loop_of_some _ _ _ _ h hold]
        have hmem := get_oldest_file_mem _ _ hold
        have hlen2 : (files.erase f).length ≤ n := by
          have he : (files.erase f).length = files.length - 1 := List.length_erase_of_mem hmem
          have hpos : 0 < files.length := List.length_pos.mpr (List.ne_nil_of_mem hmem)
          omega
        have hrec := ih (files.erase f) hlen2 toFree (freed + f.size)
        simp only [List.diff_cons]
        exact hrec

lemma dirSize_erase (files : List FileEntry) (f : FileEntry) (h : f ∈ files) :
    get_uploads_directory_size (files.erase f) + f.size =
      get_uploads_directory_size files := by
  have hperm : List.Perm files (f :: files.erase f) := List.perm_cons_erase h
  have := (hperm.map FileEntry.size).sum_eq
  unfold get_uploads_directory_size
  rw [this]
  simp
  omega

/-- When the eviction loop succeeds, the remaining directory usage is below
the original usage by at least the requested deficit. -/
lemma free_loop_size (n : Nat) : ∀ (files : List FileEntry), files.length ≤ n →
    ∀ (toFree freed : Nat), (free_loop toFree freed files).1 = true →
    get_uploads_directory_size (free_loop toFree freed files).2.2 + toFree ≤
      get_uploads_directory_size files + freed := by
  induction n with
  | zero =>
    intro files hlen toFree freed hok
    have hnil : files = [] := List.length_eq_zero.mp (Nat.le_zero.mp hlen)
    subst hnil
    by_cases h : toFree ≤ freed
    · rw [free_loop_exit _ _ _ h]
      simp; omega
    · rw [free_loop_of_none _ _ _ h (by rfl)] at hok
      simp at hok
  | succ n ih =>
    intro files hlen toFree freed hok
    by_cases h : toFree ≤ freed
    · rw [free_loop_exit _ _ _ h]
      simp; omega
    · cases hold : get_oldest_file files with
      | none => rw [free_loop_of_none _ _ _ h hold] at hok; simp at hok
      | some f =>
        have hmem := get_oldest_file_mem _ _ hold
        have hlen2 : (files.erase f).length ≤ n := by
          have he : (files.erase f).length = files.length - 1 := List.length_erase_of_mem hmem
          have hpos : 0 < files.length := List.length_pos.mpr (List.ne_nil_of_mem hmem)
          omega
        rw [free_loop_of_some _ _ _ _ h hold] at hok ⊢
        simp only at hok
        have hrec := ih (files.erase f) hlen2 toFree (freed + f.size) hok
        have hde := dirSize_erase files f hmem
        simp only
        omega

/-- Erasing an element satisfying the filter predicate commutes with
filtering. -/
lemma filter_erase_comm (p : FileEntry → Bool) (f : FileEntry) (hf : p f = true) :
    ∀ (l : List FileEntry), (l.erase f).filter p = (l.filter p).erase f := by
  intro l
  induction l with
  | nil => rfl
  | cons a rest ih =>
    by_cases ha : a = f
    · subst ha
      rw [List.erase_cons_head]
      rw [List.filter_cons_of_pos hf, List.erase_cons_head]
    · rw [List.erase_cons_tail (by simpa using ha)]
      by_cases hp : p a = true
      · rw [List.filter_cons_of_pos hp, List.filter_cons_of_pos hp,
          List.erase_cons_tail (by simpa using ha), ih]
      · rw [List.filter_cons_of_neg (by simpa using hp),
          List.filter_cons_of_neg (by simpa using hp), ih]

/-- The eviction order is a permutation of the non-dot files. -/
lemma evictionOrder_perm (n : Nat) : ∀ (files : List FileEntry), files.length ≤ n →
    (evictionOrder files).Perm (files.filter (fun f => !f.isDot)) := by
  induction n with
  | zero =>
    intro files hlen
    have hnil : files = [] := List.length_eq_zero.mp (Nat.le_zero.mp hlen)
    subst hnil
    rw [evictionOrder_of_none _ (by rfl)]
    rfl
  | succ n ih =>
    intro files hlen
    cases hold : get_oldest_file files with
    | none =>
      rw [evictionOrder_of_none _ hold]
      have hall := get_oldest_file_none files hold
      have : files.filter (fun f => !f.isDot) = [] := by
        rw [List.filter_eq_nil_iff]
        intro a ha
        simp [hall a ha]
      rw [this]
    | some f =>
      rw [evictionOrder_of_some _ _ hold]
      have hmem := get_oldest_file_mem _ _ hold
      have hdot := get_oldest_file_not_dot _ _ hold
      have hlen2 : (files.erase f).length ≤ n := by
        have he : (files.erase f).length = files.length - 1 := List.length_erase_of_mem hmem
        have hpos : 0 < files.length := List.length_pos.mpr (List.ne_nil_of_mem hmem)
        omega
      have hrec := ih (files.erase f) hlen2
      rw [filter_erase_comm _ f (by simp [hdot])] at hrec
      have hfmem : f ∈ files.filter (fun f => !f.isDot) := by
        rw [List.mem_filter]
        exact ⟨hmem, by simp [hdot]⟩
      exact (hrec.cons f).trans (List.perm_cons_erase hfmem).symm

/-- The eviction order visits files oldest-first (nondecreasing mtime). -/
lemma evictionOrder_sorted (n : Nat) : ∀ (files : List FileEntry), files.length ≤ n →
    (evictionOrder files).Pairwise (fun a b => a.mtime ≤ b.mtime) := by
  induction n with
  | zero =>
    intro files hlen
    have hnil : files = [] := List.length_eq_zero.mp (Nat.le_zero.mp hlen)
    subst hnil
    rw [evictionOrder_of_none _ (by rfl)]
    exact List.Pairwise.nil
  | succ n ih =>
    intro files hlen
    cases hold : get_oldest_file files with
    | none =>
      rw [evictionOrder_of_none _ hold]
      exact List.Pairwise.nil
    | some f =>
      rw [evictionOrder_of_some _ _ hold]
      have hmem := get_oldest_file_mem _ _ hold
      have hlen2 : (files.erase f).length ≤ n := by
        have he : (files.erase f).length = files.length - 1 := List.length_erase_of_mem hmem
        have hpos : 0 < files.length := List.length_pos.mpr (List.ne_nil_of_mem hmem)
        omega
      refine List.Pairwise.cons ?_ (ih (files.erase f) hlen2)
      intro g hg
      have hperm := evictionOrder_perm (files.erase f).length (files.erase f) le_rfl
      have hgmem : g ∈ (files.erase f).filter (fun f => !f.isDot) := hperm.mem_iff.mp hg
      rw [List.mem_filter] at hgmem
      have hginF : g ∈ files := List.mem_of_mem_erase hgmem.1
      exact get_oldest_file_min files f hold g hginF (by simpa using hgmem.2)

lemma evictionOrder_sum (files : List FileEntry) :
    ((evictionOrder files).map FileEntry.size).sum =
      ((files.filter (fun f => !f.isDot)).map FileEntry.size).sum :=
  ((evictionOrder_perm files.length files le_rfl).map FileEntry.size).sum_eq

/-! ## Upload storage admission (upload.rs, `upload_music`) -/

/-- `remove_last_track_from_queue(state, true)` as it affects the uploads
directory and the engine queue (modelled by its song URLs in order): remove
the last queue entry and delete its backing file. A no-op on an empty
queue. Metadata-registry bookkeeping and the broadcast are orthogonal to
storage accounting and elided here. -/
def remove_last_track (files : List FileEntry) (queue : List String) :
    List FileEntry × List String :=
  match queue.getLast? with
  | none => (files, queue)
  | some url => (files.filter (fun f => f.name ≠ url), queue.dropLast)

/-- The storage-admission step of `upload_music` (upload.rs lines 161-207):
if usage is already at or above the budget, first remove the last queued
track and delete its file; then call `free_up_space(MAX_FILE_SIZE)`; if
that fails, remove the last queued track and retry once; reject if the
retry also fails. Note the needed size passed to `free_up_space` is the
constant `MAX_FILE_SIZE`, not the incoming upload's size. Returns
(admitted, remaining files, remaining queue). -/
def upload_admission (maxStorage : Nat) (files : List FileEntry) (queue : List String) :
    Bool × List FileEntry × List String :=
  let currentSize := get_uploads_directory_size files
  let p1 := if maxStorage ≤ currentSize then remove_last_track files queue else (files, queue)
  let r1 := free_up_space maxStorage MAX_FILE_SIZE p1.1
  if r1.1 then (true, r1.2.2, p1.2)
  else
    let p2 := remove_last_track r1.2.2 p1.2
    let r2 := free_up_space maxStorage MAX_FILE_SIZE p2.1
    (r2.1, r2.2.2, p2.2)

/-- C4: `free_up_space` succeeds iff the budget already fits or the deficit
can be covered by deleting (oldest-first, dotfiles skipped) existing files;
on success past the immediate check it deletes exactly the shortest
oldest-first run of victims covering the deficit — never more files than
necessary — and afterwards the remaining usage plus the incoming size fits
the budget. -/
theorem claim_C4_eviction_sufficiency (B need : Nat) (files : List FileEntry) :
    ((free_up_space B need files).1 = true ↔
      get_uploads_directory_size files + need ≤ B ∨
      get_uploads_directory_size files + need - B ≤
        ((files.filter (fun f => !f.isDot)).map FileEntry.size).sum)
    ∧ (get_uploads_directory_size files + need ≤ B →
        free_up_space B need files = (true, [], files))
    ∧ (¬ get_uploads_directory_size files + need ≤ B →
        (free_up_space B need files).1 = true →
        ∃ k, (free_up_space B need files).2.1 = (evictionOrder files).take k
          ∧ get_uploads_directory_size files + need - B ≤
              (((evictionOrder files).take k).map FileEntry.size).sum
          ∧ ∀ j < k, ((((evictionOrder files).take j).map FileEntry.size).sum) <
              get_uploads_directory_size files + need - B)
    ∧ ((free_up_space B need files).1 = true →
        get_uploads_directory_size (free_up_space B need files).2.2 + need ≤ B)
    ∧ (free_up_space B need files).2.2 = files.diff (free_up_space B need files).2.1
    ∧ (evictionOrder files).Perm (files.filter (fun f => !f.isDot))
    ∧ (evictionOrder files).Pairwise (fun a b => a.mtime ≤ b.mtime) := by
  have hspec := free_loop_spec files.length files le_rfl
    (get_uploads_directory_size files + need - B) 0
  have hrem := free_loop_remaining files.length files le_rfl
    (get_uploads_directory_size files + need - B) 0
  have hsize := free_loop_size files.length files le_rfl
    (get_uploads_directory_size files + need - B) 0
  by_cases himm : get_uploads_directory_size files + need ≤ B
  · have hfus : free_up_space B need files = (true, [], files) := by
      rw [free_up_space, if_pos himm]
    refine ⟨?_, fun _ => hfus, fun hc => absurd himm hc, ?_, ?_, ?_, ?_⟩
    · rw [hfus]; simp [himm]
    · rw [hfus]; simpa using himm
    · rw [hfus]; simp
    · exact evictionOrder_perm files.length files le_rfl
    · exact evictionOrder_sorted files.length files le_rfl
  · have hfus : free_up_space B need files =
        free_loop (get_uploads_directory_size files + need - B) 0 files := by
      rw [free_up_space, if_neg himm]
    rw [hfus] at *
    have hsucc : (free_loop (get_uploads_directory_size files + need - B) 0 files).1 = true ↔
        get_uploads_directory_size files + need - B ≤
          ((evictionOrder files).map FileEntry.size).sum := by
      rw [← coverCount_isSome_iff]
      cases hc : coverCount (get_uploads_directory_size files + need - B - 0)
          ((evictionOrder files).map FileEntry.size) with
      | none =>
        rw [hc] at hspec
        simp only at hspec
        have h1 := congrArg Prod.fst hspec
        simp only at h1
        simp only [Nat.sub_zero] at hc
        rw [h1, hc]
        simp
      | some k =>
        rw [hc] at hspec
        simp only at hspec
        have h1 := congrArg Prod.fst hspec
        simp only at h1
        simp only [Nat.sub_zero] at hc
        rw [h1, hc]
        simp
    refine ⟨?_, fun hc => absurd hc himm, ?_, ?_, hrem, ?_, ?_⟩
    · rw [hsucc, evictionOrder_sum]
      tauto
    · intro _ hok
      simp only [Nat.sub_zero] at hspec
      cases hc : coverCount (get_uploads_directory_size files + need - B)
          ((evictionOrder files).map FileEntry.size) with
      | none =>
        rw [hc] at hspec
        have h1 := congrArg Prod.fst hspec
        simp only at h1
        rw [hok] at h1
        cases h1
      | some k =>
        rw [hc] at hspec
        have h2 := congrArg Prod.snd hspec
        simp only at h2
        refine ⟨k, h2, ?_, ?_⟩
        · have := coverCount_sum_take _ _ _ hc
          rwa [← List.map_take] at this
        · intro j hj
          have := coverCount_min _ _ _ hc j hj
          rwa [← List.map_take] at this
    · intro hok
      have := hsize hok
      omega
    · exact evictionOrder_perm files.length files le_rfl
    · exact evictionOrder_sorted files.length files le_rfl

lemma upload_admission_of_ok (maxStorage : Nat) (files : List FileEntry) (queue : List String)
    (h1 : ¬ maxStorage ≤ get_uploads_directory_size files)
    (h2 : (free_up_space maxStorage MAX_FILE_SIZE files).1 = true) :
    upload_admission maxStorage files queue =
      (true, (free_up_space maxStorage MAX_FILE_SIZE files).2.2, queue) := by
  rw [upload_admission]
  simp only [if_neg h1, h2, if_true]

/-- The two files of the Scenario-A counterexample: a 20 MB file older than
a 260 MB file, for 280 MB of usage against the default 300 MB budget. -/
def c1FileA : FileEntry := ⟨"a.mp3", 20 * 1024 * 1024, 0⟩

def c1FileB : FileEntry := ⟨"b.mp3", 260 * 1024 * 1024, 1⟩

def c1Files : List FileEntry := [c1FileA, c1FileB]

lemma c1_free_up_space :
    free_up_space DEFAULT_MAX_TOTAL_STORAGE MAX_FILE_SIZE c1Files =
      (true, [c1FileA, c1FileB], []) := by
  have e0 : get_oldest_file c1Files = some c1FileA := by decide
  have e1 : c1Files.erase c1FileA = [c1FileB] := by decide
  have e2 : get_oldest_file [c1FileB] = some c1FileB := by decide
  have e3 : [c1FileB].erase c1FileB = [] := by decide
  have l2 : free_loop (80 * 1024 * 1024) (280 * 1024 * 1024)
      ([] : List FileEntry) = (true, [], []) :=
    free_loop_exit _ _ _ (by norm_num)
  have l1 : free_loop (80 * 1024 * 1024) (20 * 1024 * 1024) [c1FileB] =
      (true, [c1FileB], []) := by
    rw [free_loop_of_some _ _ _ c1FileB (by norm_num) e2, e3]
    have hs : 20 * 1024 * 1024 + c1FileB.size = 280 * 1024 * 1024 := by
      norm_num [c1FileB]
    rw [hs, l2]
  have l0 : free_loop (80 * 1024 * 1024) 0 c1Files = (true, [c1FileA, c1FileB], []) := by
    rw [free_loop_of_some _ _ _ c1FileA (by norm_num) e0, e1]
    have hs : 0 + c1FileA.size = 20 * 1024 * 1024 := by
      norm_num [c1FileA]
    rw [hs, l1]
  have hd : get_uploads_directory_size c1Files = 280 * 1024 * 1024 := by
    norm_num [get_uploads_directory_size, c1Files, c1FileA, c1FileB]
  rw [free_up_space, hd]
  rw [if_neg (by norm_num [MAX_FILE_SIZE, DEFAULT_MAX_TOTAL_STORAGE])]
  have ht : 280 * 1024 * 1024 + MAX_FILE_SIZE - DEFAULT_MAX_TOTAL_STORAGE =
      80 * 1024 * 1024 := by
    norm_num [MAX_FILE_SIZE, DEFAULT_MAX_TOTAL_STORAGE]
  rw [ht, l0]

/-- C1, counterexample: with the default 300 MB budget, 280 MB of usage
(a 20 MB file older than a 260 MB file) and an incoming 40 MB upload, the
admission step deletes BOTH files — even though deleting only the oldest
20 MB file already brings usage + 40 MB within the budget — because the
deficit is computed from the fixed `MAX_FILE_SIZE` (100 MB), not from the
incoming file's size. -/
theorem claim_C1_counterexample :
    upload_admission DEFAULT_MAX_TOTAL_STORAGE c1Files [] = (true, [], []) ∧
    get_uploads_directory_size [c1FileB] + 40 * 1024 * 1024 ≤
      DEFAULT_MAX_TOTAL_STORAGE := by
  constructor
  · rw [upload_admission_of_ok _ _ _ ?h1 ?h2]
    case h1 =>
      norm_num [get_uploads_directory_size, c1Files, c1FileA, c1FileB,
        DEFAULT_MAX_TOTAL_STORAGE]
    case h2 => rw [c1_free_up_space]
    rw [c1_free_up_space]
  · norm_num [get_uploads_directory_size, c1FileB, DEFAULT_MAX_TOTAL_STORAGE]

/-- C1 (amended): upload admission evicts based on the fixed per-file
maximum `MAX_FILE_SIZE` (100 MB), not the incoming file's size: the
eviction step before the write computes the deficit from 100 MB, succeeds
immediately (deleting nothing) when usage + 100 MB already fits the
budget, and on success leaves usage + 100 MB within the budget. -/
theorem claim_C1_admission_uses_max_file_size (maxStorage : Nat)
    (files : List FileEntry) (queue : List String) :
    (get_uploads_directory_size files + MAX_FILE_SIZE ≤ maxStorage →
      upload_admission maxStorage files queue = (true, files, queue))
    ∧ (¬ get_uploads_directory_size files + MAX_FILE_SIZE ≤ maxStorage →
        free_up_space maxStorage MAX_FILE_SIZE files =
          free_loop (get_uploads_directory_size files + MAX_FILE_SIZE - maxStorage) 0 files)
    ∧ ((free_up_space maxStorage MAX_FILE_SIZE files).1 = true →
        get_uploads_directory_size (free_up_space maxStorage MAX_FILE_SIZE files).2.2 +
          MAX_FILE_SIZE ≤ maxStorage) := by
  refine ⟨?_, ?_, ?_⟩
  · intro h
    have hmax : 0 < MAX_FILE_SIZE := by norm_num [MAX_FILE_SIZE]
    have h1 : ¬ maxStorage ≤ get_uploads_directory_size files := by omega
    have hfus : free_up_space maxStorage MAX_FILE_SIZE files = (true, [], files) := by
      rw [free_up_space, if_pos h]
    rw [upload_admission_of_ok _ _ _ h1 (by rw [hfus]), hfus]
  · intro h
    rw [free_up_space, if_neg h]
  · intro hok
    by_cases himm : get_uploads_directory_size files + MAX_FILE_SIZE ≤ maxStorage
    · have hfus : free_up_space maxStorage MAX_FILE_SIZE files = (true, [], files) := by
        rw [free_up_space, if_pos himm]
      rw [hfus]
      simpa using himm
    · have hfus : free_up_space maxStorage MAX_FILE_SIZE files =
          free_loop (get_uploads_directory_size files + MAX_FILE_SIZE - maxStorage) 0 files := by
        rw [free_up_space, if_neg himm]
      rw [hfus] at hok ⊢
      have := free_loop_size files.length files le_rfl
        (get_uploads_directory_size files + MAX_FILE_SIZE - maxStorage) 0 hok
      omega

/-- Witness for C1 (amended): an empty directory admits immediately. -/
theorem claim_C1_admission_uses_max_file_size_witness :
    upload_admission DEFAULT_MAX_TOTAL_STORAGE [] [] = (true, [], []) :=
  (claim_C1_admission_uses_max_file_size DEFAULT_MAX_TOTAL_STORAGE [] []).1
    (by norm_num [get_uploads_directory_size, MAX_FILE_SIZE, DEFAULT_MAX_TOTAL_STORAGE])

/-- Witness for C4: a directory holding one 50-byte file against a
300-byte budget admits a 100-byte need immediately, deleting nothing. -/
theorem claim_C4_eviction_sufficiency_witness :
    free_up_space 300 100 [⟨"x.mp3", 50, 0⟩] = (true, [], [⟨"x.mp3", 50, 0⟩]) :=
  (claim_C4_eviction_sufficiency 300 100 [⟨"x.mp3", 50, 0⟩]).2.1
    (by norm_num [get_uploads_directory_size])

/-! ## Per-IP connection admission (state.rs, `IpConnectionTracker`) -/

/-- `AppState::MAX_STREAMS_PER_IP` from state.rs. -/
def MAX_STREAMS_PER_IP : Nat := 5

/-- usize::MAX: the value an `AtomicUsize` at 0 wraps to on `fetch_sub(1)`. -/
def USIZE_MAX : Nat := 2 ^ 64 - 1

/-- `IpConnectionTracker::try_acquire` restricted to one fixed IP: the
tracker state for that IP is `none` (no entry) or `some c` (entry with
count `c`). On a missing entry the code inserts a 0 counter first
(`or_insert`), then checks the cap, then increments. Returns
(allowed, new state). -/
def try_acquire (maxPerIp : Nat) (s : Option Nat) : Bool × Option Nat :=
  match s with
  | some c => if maxPerIp ≤ c then (false, some c) else (true, some (c + 1))
  | none => if maxPerIp ≤ 0 then (false, some 0) else (true, some 1)

/-- `IpConnectionTracker::release` restricted to one fixed IP:
`fetch_sub(1)` returns the previous value and stores the wrapped
decrement; if the previous value was ≤ 1 the entry is re-checked and
removed when its stored count is 0. -/
def release (s : Option Nat) : Option Nat :=
  match s with
  | none => none
  | some c =>
    let stored := if c = 0 then USIZE_MAX else c - 1
    if c ≤ 1 then (if stored = 0 then none else some stored)
    else some stored

/-- An operation on the tracker for the fixed IP. -/
inductive IpOp where
  | acquire
  | release
deriving DecidableEq, Repr

def ipStep (maxPerIp : Nat) (s : Option Nat) : IpOp → Option Nat
  | .acquire => (try_acquire maxPerIp s).2
  | .release => release s

/-- Run a sequence of acquire/release calls for the fixed IP, starting
from no entry (a fresh tracker). -/
def ipRun (maxPerIp : Nat) (ops : List IpOp) : Option Nat :=
  ops.foldl (ipStep maxPerIp) none

/-- The reachable-state invariant: any present entry has count in
[1, MAX_STREAMS_PER_IP]. -/
lemma ipStep_preserves (s : Option Nat) (op : IpOp)
    (h : ∀ c, s = some c → 1 ≤ c ∧ c ≤ MAX_STREAMS_PER_IP) :
    ∀ c, ipStep MAX_STREAMS_PER_IP s op = some c → 1 ≤ c ∧ c ≤ MAX_STREAMS_PER_IP := by
  intro c hc
  cases op with
  | acquire =>
    cases s with
    | none =>
      simp only [ipStep, try_acquire] at hc
      rw [if_neg (by norm_num [MAX_STREAMS_PER_IP])] at hc
      simp only at hc
      injection hc with hc
      subst hc
      norm_num [MAX_STREAMS_PER_IP]
    | some c0 =>
      obtain ⟨h1, h2⟩ := h c0 rfl
      simp only [ipStep, try_acquire] at hc
      by_cases hcap : MAX_STREAMS_PER_IP ≤ c0
      · rw [if_pos hcap] at hc
        simp only at hc
        injection hc with hc
        omega
      · rw [if_neg hcap] at hc
        simp only at hc
        injection hc with hc
        omega
  | release =>
    cases s with
    | none => simp [ipStep, release] at hc
    | some c0 =>
      obtain ⟨h1, h2⟩ := h c0 rfl
      simp only [ipStep, release] at hc
      rw [if_neg (show ¬ c0 = 0 by omega)] at hc
      by_cases hone : c0 ≤ 1
      · rw [if_pos hone] at hc
        have hc1 : c0 = 1 := by omega
        subst hc1
        simp at hc
      · rw [if_neg hone] at hc
        injection hc with hc
        omega

/-- C5: for every sequence of try_acquire/release calls for a fixed IP,
the count never exceeds `MAX_STREAMS_PER_IP` (and in particular never goes
negative — counts are naturals and the wrapping branch of `fetch_sub` is
unreachable), and an entry whose count reaches zero is removed: any entry
still present has count between 1 and the maximum. -/
theorem claim_C5_ip_tracker_invariant (ops : List IpOp) :
    (ipRun MAX_STREAMS_PER_IP ops).getD 0 ≤ MAX_STREAMS_PER_IP ∧
    (∀ c, ipRun MAX_STREAMS_PER_IP ops = some c → 1 ≤ c ∧ c ≤ MAX_STREAMS_PER_IP) := by
  have main : ∀ (l : List IpOp) (s : Option Nat),
      (∀ c, s = some c → 1 ≤ c ∧ c ≤ MAX_STREAMS_PER_IP) →
      ∀ c, l.foldl (ipStep MAX_STREAMS_PER_IP) s = some c →
        1 ≤ c ∧ c ≤ MAX_STREAMS_PER_IP := by
    intro l
    induction l with
    | nil => intro s hs c hc; exact hs c hc
    | cons op rest ih =>
      intro s hs c hc
      exact ih (ipStep MAX_STREAMS_PER_IP s op) (ipStep_preserves s op hs) c hc
  have hinv := main ops none (by simp)
  constructor
  · cases hfin : ipRun MAX_STREAMS_PER_IP ops with
    | none => simp
    | some c =>
      have := hinv c hfin
      simp
      omega
  · exact hinv

/-! ## Broadcast hub (state.rs, `broadcast_message` / websocket sessions) -/

/-- A registered WebSocket session: its generated id, and whether a text
write to it succeeds during the current delivery. -/
structure Session where
  id : Nat
  ok : Bool
deriving DecidableEq, Repr

/-- The first pass of `broadcast_message`: `for (idx, wrapper) in
sessions.iter_mut().enumerate()`, collecting the indices whose write
failed, in increasing order. -/
def collect_failed (idx : Nat) : List Session → List Nat
  | [] => []
  | s :: rest =>
    if s.ok then collect_failed (idx + 1) rest
    else idx :: collect_failed (idx + 1) rest

/-- `AppState::broadcast_message`: write to every session, collect failed
indices, then remove them in reverse index order (`Vec::remove`). -/
def broadcast_message (sessions : List Session) : List Session :=
  (collect_failed 0 sessions).reverse.foldl (fun l i => l.eraseIdx i) sessions

lemma collect_failed_shift (l : List Session) :
    ∀ idx, collect_failed (idx + 1) l = (collect_failed idx l).map (· + 1) := by
  induction l with
  | nil => intro idx; rfl
  | cons s rest ih =>
    intro idx
    by_cases hok : s.ok
    · simp only [collect_failed, if_pos hok]
      exact ih (idx + 1)
    · simp only [collect_failed, if_neg hok, List.map_cons]
      rw [ih (idx + 1)]

lemma foldl_eraseIdx_shift (idxs : List Nat) (a : Session) (l : List Session) :
    ((idxs.map (· + 1)).reverse.foldl (fun l i => l.eraseIdx i) (a :: l)) =
      a :: (idxs.reverse.foldl (fun l i => l.eraseIdx i) l) := by
  induction idxs generalizing l with
  | nil => rfl
  | cons i idxs ih =>
    simp only [List.map_cons, List.reverse_cons, List.foldl_append, List.foldl_cons,
      List.foldl_nil]
    rw [ih]
    rfl

lemma broadcast_message_eq_filter (sessions : List Session) :
    broadcast_message sessions = sessions.filter (fun s => s.ok) := by
  induction sessions with
  | nil => rfl
  | cons s rest ih =>
    unfold broadcast_message at ih ⊢
    by_cases hok : s.ok
    · simp only [collect_failed, if_pos hok, collect_failed_shift]
      rw [foldl_eraseIdx_shift, ih, List.filter_cons_of_pos (by simpa using hok)]
    · simp only [collect_failed, if_neg hok, collect_failed_shift, List.reverse_cons]
      rw [List.foldl_append, foldl_eraseIdx_shift]
      simp only [List.foldl_cons, List.foldl_nil, List.eraseIdx_cons_zero]
      rw [ih, List.filter_cons_of_neg (by simpa using hok)]

/-- C6: after `broadcast_message` the registry holds exactly the sessions
whose write succeeded: failed sessions are each removed exactly once, with
removal deferred past the iteration pass and performed in reverse index
order, which preserves the meaning of the collected indices. -/
theorem claim_C6_broadcast_pruning (sessions : List Session) :
    broadcast_message sessions = sessions.filter (fun s => s.ok) :=
  broadcast_message_eq_filter sessions

/-- Operations on the listener-session registry. `register` models the
`websocket` handler: it checks the session count against the global cap
and only then pushes the new session. -/
inductive HubOp where
  | register (s : Session)
  | unregister (id : Nat)
  | deliver
deriving DecidableEq, Repr

/-- `MAX_CONNECTIONS` from stream.rs (`websocket` handler). -/
def MAX_CONNECTIONS : Nat := 100

def hubStep (sessions : List Session) : HubOp → List Session
  | .register s =>
    if MAX_CONNECTIONS ≤ sessions.length then sessions else sessions ++ [s]
  | .unregister i => sessions.filter (fun w => w.id ≠ i)
  | .deliver => broadcast_message sessions

def hubRun (init : List Session) (ops : List HubOp) : List Session :=
  ops.foldl hubStep init

lemma hubStep_length (sessions : List Session) (op : HubOp)
    (h : sessions.length ≤ MAX_CONNECTIONS) :
    (hubStep sessions op).length ≤ MAX_CONNECTIONS := by
  cases op with
  | register s =>
    simp only [hubStep]
    by_cases hcap : MAX_CONNECTIONS ≤ sessions.length
    · rw [if_pos hcap]; exact h
    · rw [if_neg hcap]
      simp
      omega
  | unregister i =>
    simp only [hubStep]
    exact le_trans (List.length_filter_le _ _) h
  | deliver =>
    simp only [hubStep, broadcast_message_eq_filter]
    exact le_trans (List.length_filter_le _ _) h

/-- C2: a registration is a no-op once the global cap (100) is reached, so
any sequence of register/unregister/deliver operations keeps the registry
at no more than 100 sessions (given it starts within the cap). -/
theorem claim_C2_session_cap (init : List Session) (ops : List HubOp)
    (h : init.length ≤ MAX_CONNECTIONS) :
    (hubRun init ops).length ≤ MAX_CONNECTIONS := by
  induction ops generalizing init with
  | nil => exact h
  | cons op rest ih =>
    exact ih (hubStep init op) (hubStep_length init op h)

/-- Witness for C2: from an empty registry, registering one session keeps
the registry within the cap. -/
theorem claim_C2_session_cap_witness :
    (hubRun [] [HubOp.register ⟨1, true⟩]).length ≤ MAX_CONNECTIONS :=
  claim_C2_session_cap [] [HubOp.register ⟨1, true⟩] (by simp)

/-! ## Queue renumbering (mpd_manager.rs, `get_queue`) -/

/-- An engine-queue entry as far as positioning is concerned: its MPD song
id. Track-metadata resolution (`song_in_queue_to_track`) is orthogonal to
the renumbering and is modelled separately. -/
structure QSong where
  id : Nat
deriving DecidableEq, Repr

/-- A client-facing queue item: the observer-relative position (starting
at 1) and the song. -/
structure QueueItem where
  position : Nat
  song : QSong
deriving DecidableEq, Repr

/-- The `current_position` computation in `get_queue`: the current song's
absolute index plus one, or 0 when there is no current song or it cannot
be located in the queue. -/
def current_position (queue : List QSong) (current : Option QSong) : Nat :=
  match current with
  | some song =>
    match queue.findIdx? (fun s => s.id = song.id) with
    | some p => p + 1
    | none => 0
  | none => 0

/-- The `for (pos, song) in queue.into_iter().enumerate()` loop of
`get_queue`: keep entries with `pos >= current_position`, assigning them
`coming_up_index` values 1, 2, 3, ... -/
def collect_items (cp : Nat) : Nat → Nat → List QSong → List QueueItem
  | _, _, [] => []
  | pos, nextIdx, s :: rest =>
    if cp ≤ pos then ⟨nextIdx, s⟩ :: collect_items cp (pos + 1) (nextIdx + 1) rest
    else collect_items cp (pos + 1) nextIdx rest

/-- `get_queue` from mpd_manager.rs, positioning part. -/
def get_queue (queue : List QSong) (current : Option QSong) : List QueueItem :=
  collect_items (current_position queue current) 0 1 queue

lemma collect_items_length (l : List QSong) :
    ∀ cp pos k, (collect_items cp pos k l).length = l.length - (cp - pos) := by
  induction l with
  | nil => intro cp pos k; simp [collect_items]
  | cons s rest ih =>
    intro cp pos k
    by_cases h : cp ≤ pos
    · rw [collect_items, if_pos h]
      simp only [List.length_cons, ih]
      omega
    · rw [collect_items, if_neg h]
      simp only [List.length_cons, ih]
      omega

lemma collect_items_positions (l : List QSong) :
    ∀ cp pos k, (collect_items cp pos k l).map QueueItem.position =
      List.range' k (collect_items cp pos k l).length := by
  induction l with
  | nil => intro cp pos k; simp [collect_items]
  | cons s rest ih =>
    intro cp pos k
    by_cases h : cp ≤ pos
    · rw [collect_items, if_pos h]
      simp only [List.map_cons, List.length_cons]
      rw [ih, List.range'_succ]
    · rw [collect_items, if_neg h]
      exact ih cp (pos + 1) k

/-- C3: `get_queue` excludes everything up to and including the current
song and renumbers the rest densely from 1: with the current song at
0-based index `i` (1-based position `p = i + 1`) it returns exactly
`len(queue) - p` items; with no current song it returns `len(queue)`
items; and the positions are exactly 1, 2, 3, ... with no gaps or
repeats. -/
theorem claim_C3_renumbering (queue : List QSong) (current : Option QSong) :
    (current = none → (get_queue queue current).length = queue.length)
    ∧ (∀ song i, current = some song →
        queue.findIdx? (fun s => s.id = song.id) = some i →
        (get_queue queue current).length = queue.length - (i + 1))
    ∧ (get_queue queue current).map QueueItem.position =
        List.range' 1 (get_queue queue current).length := by
  refine ⟨?_, ?_, ?_⟩
  · intro h
    subst h
    have hcp : current_position queue none = 0 := rfl
    rw [get_queue, hcp, collect_items_length]
    simp
  · intro song i h hidx
    subst h
    have hcp : current_position queue (some song) = i + 1 := by
      simp only [current_position]
      rw [hidx]
    rw [get_queue, hcp, collect_items_length]
    simp
  · exact collect_items_positions queue _ 0 1

/-- Witness for C3 (Scenario B): queue of three tracks, current song the
second → exactly one upcoming item, numbered 1. -/
theorem claim_C3_renumbering_witness :
    (get_queue [⟨1⟩, ⟨2⟩, ⟨3⟩] (some ⟨2⟩)).length = 3 - (1 + 1) ∧
    (get_queue [⟨1⟩, ⟨2⟩, ⟨3⟩] (some ⟨2⟩)).map QueueItem.position =
      List.range' 1 (get_queue [⟨1⟩, ⟨2⟩, ⟨3⟩] (some ⟨2⟩)).length := by
  constructor
  · exact (claim_C3_renumbering [⟨1⟩, ⟨2⟩, ⟨3⟩] (some ⟨2⟩)).2.1 ⟨2⟩ 1 rfl (by decide)
  · exact (claim_C3_renumbering [⟨1⟩, ⟨2⟩, ⟨3⟩] (some ⟨2⟩)).2.2

/-! ## Playback monitor (mpd_manager.rs, `start_mpd_monitor`) -/

/-- An engine-queue entry as the monitor sees it: MPD song id and URL. -/
structure MSong where
  id : Nat
  url : String
deriving DecidableEq, Repr

/-- A notification broadcast to the hub during a monitor tick. -/
inductive Notif where
  | queue_update
  | current_track
deriving DecidableEq, Repr

/-- `Move::id(sid).to_position(queue_len - 1)`: the engine removes the
song with that id and re-inserts it at the last position. -/
def move_to_end (queue : List MSong) (sid : Nat) : List MSong :=
  match queue.find? (fun s => s.id = sid) with
  | none => queue
  | some s => (queue.eraseP (fun t => t.id = sid)) ++ [s]

/-- One tick of the playback monitor, given the observed engine queue, the
previously observed current filename, the currently observed current song,
whether the engine reports Stopped (so that the resolved current track is
absent exactly when there is no current song), and the storage usage and
budget read during the tick. Returns the resulting engine queue, the
notifications broadcast this tick, and whether playback was restarted at
position 0. -/
def monitor_tick (queue : List MSong) (prev : Option String) (currSong : Option MSong)
    (stopped : Bool) (currentSize maxStorage : Nat) :
    List MSong × List Notif × Bool :=
  let rest : List MSong × List Notif × Bool :=
    if stopped ∧ currSong = none ∧ queue ≠ [] then (queue, [.current_track], true)
    else (queue, [.current_track], false)
  match prev, currSong with
  | some pf, some cs =>
    if pf ≠ cs.url then
      match queue.find? (fun s => s.url = pf) with
      | some prevSong =>
        if currentSize < maxStorage then
          if (queue.findIdx? (fun s => s.id = prevSong.id)).getD 0 < queue.length - 1 then
            (move_to_end queue prevSong.id, [.queue_update], false)
          else rest
        else rest
      | none => rest
    else rest
  | _, _ => rest

/-- C7, counterexample: the previous track is already at the tail of the
queue and storage is strictly under budget, yet the tick does NOT
broadcast `queue_update` — it falls through and broadcasts
`current_track`, contradicting the claim that an under-budget
track-change tick always relocates and emits `queue_update` with no
`current_track`. -/
theorem claim_C7_counterexample :
    0 < DEFAULT_MAX_TOTAL_STORAGE ∧
    monitor_tick [⟨1, "b"⟩, ⟨2, "a"⟩] (some "a") (some ⟨1, "b"⟩) false 0
        DEFAULT_MAX_TOTAL_STORAGE =
      ([⟨1, "b"⟩, ⟨2, "a"⟩], [Notif.current_track], false) := by
  constructor
  · norm_num [DEFAULT_MAX_TOTAL_STORAGE]
  · decide

/-- C7 (amended): on a tick where the observed filename changed and the
previous track is found in the queue, (a) if storage is strictly under
budget AND the previous track is not already at the tail, it is moved to
the tail and the tick broadcasts exactly one `queue_update` and no
`current_track`; (b) if storage is at or over budget, the queue is left
untouched and the tick broadcasts `current_track` as usual. (When the
track is already at the tail or absent from the queue, no move happens
and `current_track` is broadcast, which the original claim did not
allow.) -/
theorem claim_C7_monitor_relocation
    (queue : List MSong) (pf : String) (cs : MSong) (prevSong : MSong)
    (stopped : Bool) (currentSize maxStorage : Nat)
    (hne : pf ≠ cs.url)
    (hfind : queue.find? (fun s => s.url = pf) = some prevSong) :
    (currentSize < maxStorage →
      (queue.findIdx? (fun s => s.id = prevSong.id)).getD 0 < queue.length - 1 →
      monitor_tick queue (some pf) (some cs) stopped currentSize maxStorage =
        (move_to_end queue prevSong.id, [Notif.queue_update], false)
      ∧ ∃ s, queue.find? (fun t => t.id = prevSong.id) = some s ∧
          (move_to_end queue prevSong.id).getLast? = some s)
    ∧ (maxStorage ≤ currentSize →
      monitor_tick queue (some pf) (some cs) stopped currentSize maxStorage =
        (queue, [Notif.current_track], false)) := by
  constructor
  · intro hunder hpos
    constructor
    · simp only [monitor_tick]
      rw [if_pos hne, hfind]
      simp only []
      rw [if_pos hunder, if_pos hpos]
    · have hmem : prevSong ∈ queue := List.mem_of_find?_eq_some hfind
      have hsome : (queue.find? (fun t => t.id = prevSong.id)).isSome := by
        rw [List.find?_isSome]
        exact ⟨prevSong, hmem, by simp⟩
      cases hfd : queue.find? (fun t => t.id = prevSong.id) with
      | none => rw [hfd] at hsome; simp at hsome
      | some s =>
        refine ⟨s, rfl, ?_⟩
        rw [move_to_end, hfd]
        exact List.getLast?_concat _
  · intro hover
    simp only [monitor_tick]
    rw [if_pos hne, hfind]
    simp only []
    rw [if_neg (show ¬ currentSize < maxStorage by omega)]
    rw [if_neg (show ¬ (stopped = true ∧ (some cs : Option MSong) = none ∧ queue ≠ []) from
      by simp)]

/-- Witness for C7 (amended, Scenario C): track changed from "a" to "b",
"a" sits at the head of a two-song queue, storage is under budget → "a" is
moved to the tail and only `queue_update` is broadcast. -/
theorem claim_C7_monitor_relocation_witness :
    monitor_tick [⟨1, "a"⟩, ⟨2, "b"⟩] (some "a") (some ⟨2, "b"⟩) false 0
        DEFAULT_MAX_TOTAL_STORAGE =
      (move_to_end [⟨1, "a"⟩, ⟨2, "b"⟩] 1, [Notif.queue_update], false) :=
  ((claim_C7_monitor_relocation [⟨1, "a"⟩, ⟨2, "b"⟩] "a" ⟨2, "b"⟩ ⟨1, "a"⟩ false 0
      DEFAULT_MAX_TOTAL_STORAGE (by decide) (by decide)).1
    (by norm_num [DEFAULT_MAX_TOTAL_STORAGE]) (by decide)).1

/-! ## Track-id recovery from the filename (upload.rs / mpd_manager.rs) -/

/-- Positions of `'.'` characters in a file name (character sequence). -/
def dot_positions (cs : List Char) : List Nat :=
  (List.range cs.length).filter (fun j => cs.getD j ' ' = '.')

/-- The position of the final `'.'`, if any. -/
def last_dot (cs : List Char) : Option Nat := (dot_positions cs).getLast?

/-- Rust `Path::file_stem` on a plain file name: the whole name when it
has no dot, or when its only dot is the leading character (hidden file);
otherwise the portion before the final dot. -/
def file_stem (cs : List Char) : List Char :=
  match last_dot cs with
  | none => cs
  | some 0 => cs
  | some j => cs.take j

/-- The registry-miss fallback of `song_in_queue_to_track` (and the same
extraction in `remove_last_track_from_queue`): `file_stem` then
`split('_').next()`, i.e. the leading segment before the first `'_'`. -/
def extract_track_id (filename : List Char) : List Char :=
  (file_stem filename).takeWhile (fun c => c ≠ '_')

/-- `upload_music`'s stored-filename construction:
`format!("{}_{}", track_id, sanitized_filename)`. -/
def make_upload_filename (trackId sanitized : List Char) : List Char :=
  trackId ++ '_' :: sanitized

lemma mem_of_getLast?_nat (l : List Nat) (a : Nat) (h : l.getLast? = some a) : a ∈ l := by
  have hne : l ≠ [] := by
    intro hnil
    subst hnil
    simp at h
  have := List.getLast?_eq_getLast l hne
  rw [this] at h
  injection h with h
  rw [← h]
  exact List.getLast_mem _

lemma last_dot_spec (cs : List Char) (j : Nat) (h : last_dot cs = some j) :
    j < cs.length ∧ cs.getD j ' ' = '.' := by
  have hmem : j ∈ dot_positions cs := mem_of_getLast?_nat _ _ h
  unfold dot_positions at hmem
  rw [List.mem_filter] at hmem
  obtain ⟨h1, h2⟩ := hmem
  exact ⟨List.mem_range.mp h1, by simpa using h2⟩

lemma getD_append_left (l1 l2 : List Char) (n : Nat) (h : n < l1.length) (d : Char) :
    (l1 ++ l2).getD n d = l1.getD n d := by
  rw [List.getD_eq_getElem?_getD, List.getD_eq_getElem?_getD, List.getElem?_append,
    if_pos h]

lemma getD_append_right_first (l1 l2 : List Char) (d : Char) :
    (l1 ++ l2).getD l1.length d = l2.getD 0 d := by
  rw [List.getD_eq_getElem?_getD, List.getD_eq_getElem?_getD, List.getElem?_append,
    if_neg (by omega)]
  simp

lemma getD_mem_of_lt (l : List Char) (n : Nat) (h : n < l.length) (d : Char) :
    l.getD n d ∈ l := by
  rw [List.getD_eq_getElem?_getD, List.getElem?_eq_getElem h]
  exact List.getElem_mem h

lemma takeWhile_until_underscore (i t : List Char) (h : ∀ c ∈ i, c ≠ '_') :
    (i ++ '_' :: t).takeWhile (fun c => c ≠ '_') = i := by
  induction i with
  | nil => simp [List.takeWhile_cons]
  | cons c cs ih =>
    have hc : c ≠ '_' := h c (by simp)
    simp only [List.cons_append, List.takeWhile_cons, decide_eq_true_eq]
    rw [if_pos hc, ih (fun x hx => h x (by simp [hx]))]

/-- C8: for an id made only of characters other than `'_'` and `'.'` (as a
generated UUID is: hex digits and hyphens), storing a file under
`{id}_{sanitized}` and recovering the id through the registry-miss
fallback (leading `'_'`-separated segment of the file stem) yields exactly
the original id. -/
theorem claim_C8_id_recovery (i rest : List Char)
    (hid : ∀ c ∈ i, c ≠ '_' ∧ c ≠ '.') :
    extract_track_id (make_upload_filename i rest) = i := by
  unfold make_upload_filename extract_track_id
  have hstem : ∃ t, file_stem (i ++ '_' :: rest) = i ++ '_' :: t := by
    unfold file_stem
    cases hld : last_dot (i ++ '_' :: rest) with
    | none => exact ⟨rest, rfl⟩
    | some j =>
      obtain ⟨hjlen, hjdot⟩ := last_dot_spec _ _ hld
      have hjge : i.length + 1 ≤ j := by
        by_contra hlt
        by_cases hji : j < i.length
        · rw [getD_append_left _ _ _ hji] at hjdot
          exact absurd hjdot ((hid _ (getD_mem_of_lt i j hji ' ')).2)
        · have hj : j = i.length := by omega
          rw [hj, getD_append_right_first] at hjdot
          simp at hjdot
      cases j with
      | zero => omega
      | succ j0 =>
        simp only []
        rw [List.take_append_eq_append_take, List.take_of_length_le (by omega)]
        have hsplit : j0 + 1 - i.length = (j0 - i.length) + 1 := by omega
        rw [hsplit]
        exact ⟨rest.take (j0 - i.length), rfl⟩
  obtain ⟨t, ht⟩ := hstem
  rw [ht]
  exact takeWhile_until_underscore i t (fun c hc => (hid c hc).1)

/-- Witness for C8: a concrete UUID-like id survives the round trip
through `{id}_{name}.mp3` and back. -/
theorem claim_C8_id_recovery_witness :
    extract_track_id (make_upload_filename "ab12-cd34".toList "my song.mp3".toList) =
      "ab12-cd34".toList :=
  claim_C8_id_recovery _ _ (by decide)

/-! ## Per-file upload size cap (upload.rs, `upload_music` write loop) -/

/-- The observable effects of the post-admission part of `upload_music`:
whether the request succeeded, whether the destination file is left on
disk, whether a Track was inserted into the registry, and whether an
engine enqueue (`add_file_to_mpd`) was issued. -/
structure UploadOutcome where
  accepted : Bool
  fileOnDisk : Bool
  metadataInserted : Bool
  enqueued : Bool
deriving DecidableEq, Repr

/-- The chunked write loop of `upload_music`: add each chunk's length to
the running total and abort (`none`) as soon as the total exceeds
`MAX_FILE_SIZE`; otherwise return the bytes written. -/
def upload_write_loop (total : Nat) : List Nat → Option Nat
  | [] => some total
  | c :: rest =>
    if MAX_FILE_SIZE < total + c then none
    else upload_write_loop (total + c) rest

/-- The post-admission phase of `upload_music` over the chunk sizes of the
request body: on overflow the partially written file is deleted and the
request rejected before any metadata insert or enqueue; otherwise the
metadata is stored and the file enqueued. -/
def upload_write (chunks : List Nat) : UploadOutcome :=
  match upload_write_loop 0 chunks with
  | none => ⟨false, false, false, false⟩
  | some _ => ⟨true, true, true, true⟩

lemma upload_write_loop_none_iff (chunks : List Nat) :
    ∀ total, total ≤ MAX_FILE_SIZE →
    (upload_write_loop total chunks = none ↔ MAX_FILE_SIZE < total + chunks.sum) := by
  induction chunks with
  | nil =>
    intro total htot
    simp [upload_write_loop]
    omega
  | cons c rest ih =>
    intro total htot
    by_cases hover : MAX_FILE_SIZE < total + c
    · rw [upload_write_loop, if_pos hover]
      simp
      omega
    · rw [upload_write_loop, if_neg hover]
      rw [ih (total + c) (by omega)]
      simp
      omega

/-- C9: when the streamed body exceeds `MAX_FILE_SIZE` (100 MB), the
partially written file is removed from disk and the request rejected,
with no Track-registry insert and no engine enqueue; within the cap the
upload completes. -/
theorem claim_C9_oversize_upload_cleanup (chunks : List Nat) :
    (MAX_FILE_SIZE < chunks.sum →
      upload_write chunks = ⟨false, false, false, false⟩)
    ∧ (chunks.sum ≤ MAX_FILE_SIZE →
      upload_write chunks = ⟨true, true, true, true⟩) := by
  have hiff := upload_write_loop_none_iff chunks 0 (by omega)
  constructor
  · intro h
    have hnone : upload_write_loop 0 chunks = none := hiff.mpr (by omega)
    rw [upload_write, hnone]
  · intro h
    cases hres : upload_write_loop 0 chunks with
    | none =>
      have := hiff.mp hres
      omega
    | some t => rw [upload_write, hres]

/-- Witness for C9: a single chunk one byte over the cap is rejected with
full cleanup. -/
theorem claim_C9_oversize_upload_cleanup_witness :
    upload_write [MAX_FILE_SIZE + 1] = ⟨false, false, false, false⟩ :=
  (claim_C9_oversize_upload_cleanup [MAX_FILE_SIZE + 1]).1 (by simp)

/-! ## Stream admission slot balance (stream.rs, `stream_proxy`) -/

/-- `TrackedStream`'s slot-ownership state: the idempotency flag set by
`Drop`. -/
structure TrackedStream where
  released : Bool
deriving DecidableEq, Repr

/-- `TrackedStream::drop`: release the per-IP slot unless the flag is
already set; returns the updated stream and the number of releases
performed (0 or 1). -/
def drop_stream (ts : TrackedStream) : TrackedStream × Nat :=
  if ts.released then (ts, 0) else (⟨true⟩, 1)

/-- Total slot releases over `n` successive drop invocations. -/
def drop_n : Nat → TrackedStream → Nat
  | 0, _ => 0
  | n + 1, ts => (drop_stream ts).2 + drop_n n (drop_stream ts).1

/-- The environment a `stream_proxy` request runs against: whether
`try_acquire` grants a slot, the queue fetch (`none` models an Err, which
the code logs and ignores), and whether the upstream connect succeeds. -/
structure ProxyEnv where
  acquireOk : Bool
  queueResult : Option (List Nat)
  connectOk : Bool
deriving DecidableEq, Repr

/-- What a `stream_proxy` run did with the per-IP slot: how many slots it
acquired, how many it released before returning a response, and the
tracked body stream it returned (if any). -/
structure ProxyResult where
  acquired : Nat
  releasedInline : Nat
  stream : Option TrackedStream
deriving DecidableEq, Repr

/-- The connect attempt at the end of `stream_proxy`: on success the
response body is a fresh `TrackedStream` owning the slot; on failure the
slot is released before the error response. -/
def proxy_connect (env : ProxyEnv) : ProxyResult :=
  if env.connectOk then ⟨1, 0, some ⟨false⟩⟩
  else ⟨1, 1, none⟩

/-- `stream_proxy` from stream.rs: reject without a slot when acquisition
fails; release the slot and reject when the queue is known to be empty;
otherwise (including when the queue fetch errs) attempt the upstream
connection. -/
def stream_proxy (env : ProxyEnv) : ProxyResult :=
  if !env.acquireOk then ⟨0, 0, none⟩
  else
    match env.queueResult with
    | some q => if q.isEmpty then ⟨1, 1, none⟩ else proxy_connect env
    | none => proxy_connect env

lemma drop_n_spent (n : Nat) : drop_n n ⟨true⟩ = 0 := by
  induction n with
  | zero => rfl
  | succ n ih =>
    rw [drop_n]
    simp [drop_stream, ih]

lemma drop_n_fresh (n : Nat) (h : 1 ≤ n) : drop_n n ⟨false⟩ = 1 := by
  cases n with
  | zero => omega
  | succ m =>
    rw [drop_n]
    simp [drop_stream, drop_n_spent]

/-- C10: every `stream_proxy` run balances its per-IP slot: a run that
returns no stream has released exactly as many slots as it acquired; a run
that returns a stream holds exactly one unreleased slot, owned by a fresh
`TrackedStream` whose drop — however many times the teardown path is
exercised — releases it exactly once, guarded by the idempotency flag. -/
theorem claim_C10_slot_balance (env : ProxyEnv) :
    ((stream_proxy env).stream = none →
      (stream_proxy env).acquired = (stream_proxy env).releasedInline)
    ∧ (∀ ts, (stream_proxy env).stream = some ts →
        ts.released = false ∧
        (stream_proxy env).acquired = (stream_proxy env).releasedInline + 1)
    ∧ (∀ ts, (stream_proxy env).stream = some ts → ∀ n, 1 ≤ n → drop_n n ts = 1) := by
  obtain ⟨a, q, c⟩ := env
  have hstream : ∀ ts, (stream_proxy ⟨a, q, c⟩).stream = some ts → ts = ⟨false⟩ := by
    intro ts hts
    cases a with
    | false => simp [stream_proxy] at hts
    | true =>
      cases q with
      | none =>
        cases c with
        | false => simp [stream_proxy, proxy_connect] at hts
        | true =>
          simp [stream_proxy, proxy_connect] at hts
          exact hts.symm
      | some l =>
        by_cases hl : l.isEmpty
        · simp [stream_proxy, hl] at hts
        · cases c with
          | false => simp [stream_proxy, hl, proxy_connect] at hts
          | true =>
            simp [stream_proxy, hl, proxy_connect] at hts
            exact hts.symm
  refine ⟨?_, ?_, ?_⟩
  · intro hnone
    cases a with
    | false => rfl
    | true =>
      cases q with
      | none =>
        cases c with
        | false => rfl
        | true => simp [stream_proxy, proxy_connect] at hnone
      | some l =>
        by_cases hl : l.isEmpty
        · simp [stream_proxy, hl]
        · cases c with
          | false => simp [stream_proxy, hl, proxy_connect]
          | true => simp [stream_proxy, hl, proxy_connect] at hnone
  · intro ts hts
    have hfr := hstream ts hts
    subst hfr
    refine ⟨rfl, ?_⟩
    cases a with
    | false => simp [stream_proxy] at hts
    | true =>
      cases q with
      | none =>
        cases c with
        | false => simp [stream_proxy, proxy_connect] at hts
        | true => rfl
      | some l =>
        by_cases hl : l.isEmpty
        · simp [stream_proxy, hl] at hts
        · cases c with
          | false => simp [stream_proxy, hl, proxy_connect] at hts
          | true => simp [stream_proxy, hl, proxy_connect]
  · intro ts hts n hn
    have hfr := hstream ts hts
    subst hfr
    exact drop_n_fresh n hn

/-- Witness for C10: a granted, connected request returns a fresh stream
whose single teardown releases exactly one slot. -/
theorem claim_C10_slot_balance_witness :
    drop_n 1 ⟨false⟩ = 1 :=
  (claim_C10_slot_balance ⟨true, some [1], true⟩).2.2 ⟨false⟩ rfl 1 (by omega)

end MuchasRadio
